import Mathlib

/-!
Shallow embedding of the matcha note-store backend
(src/src-tauri/src/lib.rs) and verification of its specification.

Modelling conventions:
* `Note` mirrors the Rust struct field for field; `u64` timestamps become
  `Nat` (no arithmetic is performed on them, so no overflow is reachable),
  `Option<u64>` becomes `Option Nat`.
* The persisted file is modelled at the JSON level: a value of type
  `Option Json` (`none` = file absent, unreadable, or not valid JSON).
  `serde_json::to_string_pretty` followed by `serde_json::from_str` is the
  identity on the JSON value, so the string layer is abstracted away.
  `encodeNote` / `decodeNote` mirror the serde-derived `Serialize` /
  `Deserialize` implementations for `Note`, including the per-field
  defaulting attributes (`#[serde(default)]`, `default_list`, and the
  implicit `None` default of `Option` fields) and the requirement that
  the four non-default fields be present.
* Each Tauri command becomes a pure function on the collection.  The Rust
  code mutates the collection under the mutex and then calls `save_notes`;
  the outcome of the save is outside the core (an I/O effect), so it is
  passed in as a parameter `sr : Except String Unit`.  Each function
  returns the command result together with the collection as it stands in
  memory when the command returns.
* `now_unix()` and `Uuid::new_v4()` are environment-supplied values; they
  are passed as parameters (`now : Nat`, `freshId : String`).
-/

/-- The Note record, mirroring the Rust struct `Note`. -/
structure Note where
  id : String
  content : String
  created_at : Nat
  updated_at : Nat
  pinned : Bool
  list : String
  deleted : Bool
  deleted_at : Option Nat
deriving DecidableEq, Repr

/-- Default for the `list` field, mirroring `default_list()`. -/
def default_list : String := "My Notes"

/-- A JSON value, the abstraction of the persisted file contents. -/
inductive Json where
  | null : Json
  | bool : Bool → Json
  | num : Nat → Json
  | str : String → Json
  | arr : List Json → Json
  | obj : List (String × Json) → Json

def Json.asStr : Json → Option String
  | .str s => some s
  | _ => none

def Json.asNum : Json → Option Nat
  | .num n => some n
  | _ => none

def Json.asBool : Json → Option Bool
  | .bool b => some b
  | _ => none

/-- Field lookup in a JSON object (first occurrence of the key). -/
def Json.getField (j : Json) (key : String) : Option Json :=
  match j with
  | .obj fields => fields.lookup key
  | _ => none

/-- Serialization of one note, mirroring the serde-derived `Serialize`
implementation: every field is written, in declaration order; a `None`
value of `deleted_at` is written as JSON null. -/
def encodeNote (n : Note) : Json :=
  Json.obj
    [ ("id", Json.str n.id)
    , ("content", Json.str n.content)
    , ("created_at", Json.num n.created_at)
    , ("updated_at", Json.num n.updated_at)
    , ("pinned", Json.bool n.pinned)
    , ("list", Json.str n.list)
    , ("deleted", Json.bool n.deleted)
    , ("deleted_at", match n.deleted_at with
        | none => Json.null
        | some t => Json.num t) ]

/-- Deserialization of one note, mirroring the serde-derived
`Deserialize` implementation: `id`, `content`, `created_at`,
`updated_at` are required; `pinned` and `deleted` default to `false`
when absent (`#[serde(default)]`); `list` defaults to `"My Notes"`
(`#[serde(default = "default_list")]`); `deleted_at : Option<u64>`
defaults to `None` when absent and also accepts JSON null. -/
def decodeNote (j : Json) : Option Note := do
  let id ← (j.getField "id").bind Json.asStr
  let content ← (j.getField "content").bind Json.asStr
  let created_at ← (j.getField "created_at").bind Json.asNum
  let updated_at ← (j.getField "updated_at").bind Json.asNum
  let pinned ← match j.getField "pinned" with
    | none => some false
    | some v => v.asBool
  let list ← match j.getField "list" with
    | none => some default_list
    | some v => v.asStr
  let deleted ← match j.getField "deleted" with
    | none => some false
    | some v => v.asBool
  let deleted_at ← match j.getField "deleted_at" with
    | none => some none
    | some Json.null => some none
    | some (Json.num t) => some (some t)
    | some _ => none
  pure { id := id, content := content, created_at := created_at,
         updated_at := updated_at, pinned := pinned, list := list,
         deleted := deleted, deleted_at := deleted_at }

/-- Deserialization of the whole collection: the file must hold a JSON
array each element of which decodes to a note. -/
def decodeNotes (j : Json) : Option (List Note) :=
  match j with
  | .arr xs => xs.mapM decodeNote
  | _ => none

/-- Serialization of the whole collection. -/
def encodeNotes (notes : List Note) : Json :=
  Json.arr (notes.map encodeNote)

/-- The JSON value written by `save_notes` (the write itself may fail;
the content written on success is this value). -/
def save_notes (notes : List Note) : Json :=
  encodeNotes notes

/-- Mirrors `load_notes`: read the file, parse it, decode it; on any
failure along the way fall back to the empty collection
(`.ok() .and_then(.. .ok()) .unwrap_or_default()`). -/
def load_notes (file : Option Json) : List Note :=
  (file.bind decodeNotes).getD []

/-- Mirrors the `iter_mut().find(..)` + in-place mutation pattern of the
single-note commands: locate the first note satisfying `p`, replace it
with `f` applied to it, and return the updated note (the Rust code
clones it for the return value) together with the updated collection.
`none` when no note matches. -/
def updateFirst (p : Note → Bool) (f : Note → Note) : List Note → Option (Note × List Note)
  | [] => none
  | n :: rest =>
    if p n then some (f n, f n :: rest)
    else (updateFirst p f rest).map (fun r => (r.1, n :: r.2))

/-- Mirrors `create_note`: build the fresh note, push it, save, return it.
The collection is mutated before the save, so on save failure the new
note is still in memory and the error is returned. -/
def create_note (notes : List Note) (freshId : String) (now : Nat)
    (list : String) (sr : Except String Unit) : Except String Note × List Note :=
  let note : Note :=
    { id := freshId, content := "", created_at := now, updated_at := now,
      pinned := false, list := list, deleted := false, deleted_at := none }
  let notes' := notes ++ [note]
  (match sr with
   | .error e => .error e
   | .ok _ => .ok note, notes')

/-- Mirrors `update_note`: find by id, replace content, stamp
`updated_at`, save, return the updated note. -/
def update_note (notes : List Note) (id content : String) (now : Nat)
    (sr : Except String Unit) : Except String Note × List Note :=
  match updateFirst (fun n => n.id == id)
      (fun n => { n with content := content, updated_at := now }) notes with
  | none => (.error ("Note " ++ id ++ " not found"), notes)
  | some (n, notes') =>
    (match sr with
     | .error e => .error e
     | .ok _ => .ok n, notes')

/-- Mirrors `update_note_list`: relabel every note whose list equals
`old_list`, save, return the save result. -/
def update_note_list (notes : List Note) (old_list new_list : String)
    (sr : Except String Unit) : Except String Unit × List Note :=
  (sr, notes.map (fun n => if n.list == old_list then { n with list := new_list } else n))

/-- Mirrors `pin_note`: find by id, set the pinned flag, save. -/
def pin_note (notes : List Note) (id : String) (pinned : Bool)
    (sr : Except String Unit) : Except String Note × List Note :=
  match updateFirst (fun n => n.id == id) (fun n => { n with pinned := pinned }) notes with
  | none => (.error ("Note " ++ id ++ " not found"), notes)
  | some (n, notes') =>
    (match sr with
     | .error e => .error e
     | .ok _ => .ok n, notes')

/-- Mirrors `soft_delete_note`: find by id, set `deleted`, stamp
`deleted_at`, clear `pinned`, save. -/
def soft_delete_note (notes : List Note) (id : String) (now : Nat)
    (sr : Except String Unit) : Except String Note × List Note :=
  match updateFirst (fun n => n.id == id)
      (fun n => { n with deleted := true, deleted_at := some now, pinned := false }) notes with
  | none => (.error ("Note " ++ id ++ " not found"), notes)
  | some (n, notes') =>
    (match sr with
     | .error e => .error e
     | .ok _ => .ok n, notes')

/-- Mirrors `restore_note`: find by id, clear `deleted` and
`deleted_at`, save. -/
def restore_note (notes : List Note) (id : String)
    (sr : Except String Unit) : Except String Note × List Note :=
  match updateFirst (fun n => n.id == id)
      (fun n => { n with deleted := false, deleted_at := none }) notes with
  | none => (.error ("Note " ++ id ++ " not found"), notes)
  | some (n, notes') =>
    (match sr with
     | .error e => .error e
     | .ok _ => .ok n, notes')

/-- Mirrors `delete_note`: `retain` every note whose id differs, save. -/
def delete_note (notes : List Note) (id : String)
    (sr : Except String Unit) : Except String Unit × List Note :=
  (sr, notes.filter (fun n => n.id != id))

/-- One store operation, with the environment-supplied values (fresh id,
current clock reading) recorded in the constructor. -/
inductive Op where
  | create (freshId : String) (now : Nat) (list : String)
  | update (id content : String) (now : Nat)
  | pin (id : String) (pinned : Bool)
  | renameList (old_list new_list : String)
  | softDelete (id : String) (now : Nat)
  | restore (id : String)
  | hardDelete (id : String)
deriving DecidableEq, Repr

/-- The effect of one operation on the in-memory collection.  The save
outcome does not influence the collection (the mutation precedes the
save), so the collection component is taken with a successful save. -/
def applyOp (notes : List Note) : Op → List Note
  | .create freshId now list => (create_note notes freshId now list (.ok ())).2
  | .update id content now => (update_note notes id content now (.ok ())).2
  | .pin id pinned => (pin_note notes id pinned (.ok ())).2
  | .renameList o n => (update_note_list notes o n (.ok ())).2
  | .softDelete id now => (soft_delete_note notes id now (.ok ())).2
  | .restore id => (restore_note notes id (.ok ())).2
  | .hardDelete id => (delete_note notes id (.ok ())).2

/-- The collection after a sequence of operations. -/
def applyOps (notes : List Note) (ops : List Op) : List Note :=
  ops.foldl applyOp notes

/-- The Active⇔Deleted invariant of the spec: `deleted == true` iff
`deleted_at` holds a timestamp, `deleted == false` iff it is absent. -/
abbrev InvDel (notes : List Note) : Prop :=
  ∀ n ∈ notes, (n.deleted = true ↔ n.deleted_at.isSome = true) ∧
    (n.deleted = false ↔ n.deleted_at = none)

/-- The timestamp invariant of the spec: `created_at ≤ updated_at`. -/
abbrev InvTime (notes : List Note) : Prop :=
  ∀ n ∈ notes, n.created_at ≤ n.updated_at

/-- Every timestamp in the collection is at most `t` (the clock has not
yet read past `t`). -/
abbrev TimeBound (t : Nat) (notes : List Note) : Prop :=
  ∀ n ∈ notes, n.created_at ≤ t ∧ n.updated_at ≤ t

/-- The clock reading an operation consumes, when it consumes one. -/
def Op.time : Op → Option Nat
  | .create _ now _ => some now
  | .update _ _ now => some now
  | .softDelete _ now => some now
  | _ => none

/-- A sequence of operations is well-timed from `t` when the clock
readings consumed along it are at least `t` and non-decreasing (the
system clock does not jump backwards). -/
def wellTimed (t : Nat) : List Op → Bool
  | [] => true
  | op :: ops =>
    match op.time with
    | none => wellTimed t ops
    | some t' => decide (t ≤ t') && wellTimed t' ops

/-- The ids of the collection, in order. -/
def idsOf (notes : List Note) : List String :=
  notes.map Note.id

/-- Every create along the sequence draws an id not currently in the
collection (the freshness delivered by `Uuid::new_v4`). -/
def freshAlong (notes : List Note) : List Op → Bool
  | [] => true
  | op :: ops =>
    match op with
    | .create freshId _ _ =>
      !((idsOf notes).contains freshId) && freshAlong (applyOp notes op) ops
    | _ => freshAlong (applyOp notes op) ops

/-! ## Helper lemmas about `updateFirst` -/

/-- Characterization of a successful `updateFirst`: some element `x` of
the input satisfies the predicate, the returned note is `f x`, and every
element of the output was already in the input or is `f x`. -/
theorem updateFirst_some {p : Note → Bool} {f : Note → Note} :
    ∀ {l : List Note} {u : Note} {l' : List Note},
    updateFirst p f l = some (u, l') →
    ∃ x, x ∈ l ∧ p x = true ∧ u = f x ∧ ∀ m ∈ l', m ∈ l ∨ m = f x := by
  intro l
  induction l with
  | nil => intro u l' h; simp [updateFirst] at h
  | cons n rest ih =>
    intro u l' h
    unfold updateFirst at h
    by_cases hp : p n
    · rw [if_pos hp] at h
      rw [Option.some_inj, Prod.mk.injEq] at h
      obtain ⟨hu, hl⟩ := h
      refine ⟨n, by simp, hp, hu.symm, ?_⟩
      intro m hm
      rw [← hl] at hm
      rcases List.mem_cons.mp hm with h1 | h1
      · exact Or.inr h1
      · exact Or.inl (List.mem_cons_of_mem _ h1)
    · rw [if_neg hp] at h
      cases hrec : updateFirst p f rest with
      | none => rw [hrec] at h; simp at h
      | some r =>
        obtain ⟨u₀, rest'⟩ := r
        rw [hrec] at h
        simp only [Option.map_some', Option.some_inj, Prod.mk.injEq] at h
        obtain ⟨hu, hl⟩ := h
        obtain ⟨x, hx, hpx, hux, hmem⟩ := ih hrec
        refine ⟨x, List.mem_cons_of_mem _ hx, hpx, hu ▸ hux, ?_⟩
        intro m hm
        rw [← hl] at hm
        rcases List.mem_cons.mp hm with h1 | h1
        · exact Or.inl (h1 ▸ List.mem_cons_self _ _)
        · rcases hmem m h1 with h2 | h2
          · exact Or.inl (List.mem_cons_of_mem _ h2)
          · exact Or.inr h2

/-- A successful `updateFirst` whose transformation preserves a
projection `g` leaves the image of the collection under `g` unchanged. -/
theorem updateFirst_map {α : Type} {g : Note → α} {p : Note → Bool} {f : Note → Note} :
    ∀ {l : List Note} {u : Note} {l' : List Note},
    updateFirst p f l = some (u, l') → (∀ m, g (f m) = g m) → l'.map g = l.map g := by
  intro l
  induction l with
  | nil => intro u l' h _; simp [updateFirst] at h
  | cons n rest ih =>
    intro u l' h hg
    unfold updateFirst at h
    by_cases hp : p n
    · rw [if_pos hp] at h
      rw [Option.some_inj, Prod.mk.injEq] at h
      rw [← h.2]
      simp [hg n]
    · rw [if_neg hp] at h
      cases hrec : updateFirst p f rest with
      | none => rw [hrec] at h; simp at h
      | some r =>
        obtain ⟨u₀, rest'⟩ := r
        rw [hrec] at h
        simp only [Option.map_some', Option.some_inj, Prod.mk.injEq] at h
        rw [← h.2]
        simp [ih hrec hg]

/-- Mapping a function that fixes every element of a list is the
identity on that list. -/
theorem map_fix_eq_self {α : Type} (f : α → α) :
    ∀ (l : List α), (∀ a ∈ l, f a = a) → l.map f = l := by
  intro l
  induction l with
  | nil => intro; rfl
  | cons n rest ih =>
    intro h
    simp only [List.map_cons]
    rw [h n (List.mem_cons_self _ _), ih (fun a ha => h a (List.mem_cons_of_mem _ ha))]

/-! ## C2: soft-delete clears `pinned` -/

/-- C2: for every note in the collection and every prior value of its
pinned flag, soft-deleting that note yields a note with
`pinned == false` (and `deleted == true`), so the note produced by a
soft-delete is never both pinned and deleted; every note of the
resulting collection is either an untouched pre-existing note or the
soft-deleted one with `pinned == false`. -/
theorem C2_soft_delete_clears_pinned (notes : List Note) (id : String) (now : Nat)
    (sr : Except String Unit) :
    (∀ n, (soft_delete_note notes id now sr).1 = Except.ok n →
      n.pinned = false ∧ n.deleted = true) ∧
    (∀ m ∈ (soft_delete_note notes id now sr).2,
      m ∈ notes ∨ (m.pinned = false ∧ m.deleted = true)) := by
  cases hrec : updateFirst (fun n => n.id == id)
      (fun n => { n with deleted := true, deleted_at := some now, pinned := false }) notes with
  | none =>
    constructor
    · intro n hn
      simp [soft_delete_note, hrec] at hn
    · intro m hm
      simp [soft_delete_note, hrec] at hm
      exact Or.inl hm
  | some r =>
    obtain ⟨u, l'⟩ := r
    obtain ⟨x, hx, hpx, hux, hmem⟩ := updateFirst_some hrec
    constructor
    · intro n hn
      simp [soft_delete_note, hrec] at hn
      cases sr with
      | error e => simp at hn
      | ok _ =>
        simp at hn
        subst hn
        rw [hux]
        exact ⟨rfl, rfl⟩
    · intro m hm
      simp [soft_delete_note, hrec] at hm
      rcases hmem m hm with h1 | h1
      · exact Or.inl h1
      · rw [h1]
        exact Or.inr ⟨rfl, rfl⟩

/-- Witness for C2 at a concrete pinned note. -/
theorem C2_witness :
    ({ id := "a", content := "c", created_at := 1, updated_at := 2, pinned := false,
       list := "L", deleted := true, deleted_at := some 9 } : Note).pinned = false ∧
    ({ id := "a", content := "c", created_at := 1, updated_at := 2, pinned := false,
       list := "L", deleted := true, deleted_at := some 9 } : Note).deleted = true :=
  (C2_soft_delete_clears_pinned
    [{ id := "a", content := "c", created_at := 1, updated_at := 2, pinned := true,
       list := "L", deleted := false, deleted_at := none }] "a" 9 (Except.ok ())).1
    _ rfl

/-! ## C5: save failure leaves the in-memory mutation applied -/

/-- C5: for every mutating operation, when the persistence save step
fails the error is returned to the caller and the in-memory collection
is exactly the one produced by the same operation with a successful
save: the mutation precedes the save and no rollback or retry happens.
For the find-by-id operations the failing save is only reached when the
id was found (witnessed by the successful-save run returning `ok`). -/
theorem C5_save_failure_keeps_mutation (notes : List Note)
    (freshId id content old_list new_list : String) (now : Nat) (b : Bool) (e : String) :
    ((create_note notes freshId now old_list (Except.error e)).2 =
        (create_note notes freshId now old_list (Except.ok ())).2 ∧
      (create_note notes freshId now old_list (Except.error e)).1 = Except.error e) ∧
    ((update_note notes id content now (Except.error e)).2 =
        (update_note notes id content now (Except.ok ())).2 ∧
      ∀ n, (update_note notes id content now (Except.ok ())).1 = Except.ok n →
        (update_note notes id content now (Except.error e)).1 = Except.error e) ∧
    ((pin_note notes id b (Except.error e)).2 = (pin_note notes id b (Except.ok ())).2 ∧
      ∀ n, (pin_note notes id b (Except.ok ())).1 = Except.ok n →
        (pin_note notes id b (Except.error e)).1 = Except.error e) ∧
    ((soft_delete_note notes id now (Except.error e)).2 =
        (soft_delete_note notes id now (Except.ok ())).2 ∧
      ∀ n, (soft_delete_note notes id now (Except.ok ())).1 = Except.ok n →
        (soft_delete_note notes id now (Except.error e)).1 = Except.error e) ∧
    ((restore_note notes id (Except.error e)).2 = (restore_note notes id (Except.ok ())).2 ∧
      ∀ n, (restore_note notes id (Except.ok ())).1 = Except.ok n →
        (restore_note notes id (Except.error e)).1 = Except.error e) ∧
    ((update_note_list notes old_list new_list (Except.error e)).2 =
        (update_note_list notes old_list new_list (Except.ok ())).2 ∧
      (update_note_list notes old_list new_list (Except.error e)).1 = Except.error e) ∧
    ((delete_note notes id (Except.error e)).2 = (delete_note notes id (Except.ok ())).2 ∧
      (delete_note notes id (Except.error e)).1 = Except.error e) := by
  refine ⟨⟨rfl, rfl⟩, ?_, ?_, ?_, ?_, ⟨rfl, rfl⟩, ⟨rfl, rfl⟩⟩
  · cases hrec : updateFirst (fun n => n.id == id)
        (fun n => { n with content := content, updated_at := now }) notes with
    | none =>
      refine ⟨by simp [update_note, hrec], ?_⟩
      intro n hn
      simp [update_note, hrec] at hn
    | some r =>
      obtain ⟨u, l'⟩ := r
      refine ⟨by simp [update_note, hrec], ?_⟩
      intro n _
      simp [update_note, hrec]
  · cases hrec : updateFirst (fun n => n.id == id)
        (fun n => { n with pinned := b }) notes with
    | none =>
      refine ⟨by simp [pin_note, hrec], ?_⟩
      intro n hn
      simp [pin_note, hrec] at hn
    | some r =>
      obtain ⟨u, l'⟩ := r
      refine ⟨by simp [pin_note, hrec], ?_⟩
      intro n _
      simp [pin_note, hrec]
  · cases hrec : updateFirst (fun n => n.id == id)
        (fun n => { n with deleted := true, deleted_at := some now, pinned := false }) notes with
    | none =>
      refine ⟨by simp [soft_delete_note, hrec], ?_⟩
      intro n hn
      simp [soft_delete_note, hrec] at hn
    | some r =>
      obtain ⟨u, l'⟩ := r
      refine ⟨by simp [soft_delete_note, hrec], ?_⟩
      intro n _
      simp [soft_delete_note, hrec]
  · cases hrec : updateFirst (fun n => n.id == id)
        (fun n => { n with deleted := false, deleted_at := none }) notes with
    | none =>
      refine ⟨by simp [restore_note, hrec], ?_⟩
      intro n hn
      simp [restore_note, hrec] at hn
    | some r =>
      obtain ⟨u, l'⟩ := r
      refine ⟨by simp [restore_note, hrec], ?_⟩
      intro n _
      simp [restore_note, hrec]

/-- Witness for C5: a failing save on an edit of a present note returns
the error while the collection keeps the edit; likewise for create. -/
theorem C5_witness :
    (update_note
      [{ id := "a", content := "", created_at := 1, updated_at := 1, pinned := false,
         list := "L", deleted := false, deleted_at := none }] "a" "x" 5
      (Except.error "boom")).1 = Except.error "boom" ∧
    (create_note [] "u" 5 "L" (Except.error "boom")).1 = Except.error "boom" := by
  constructor
  · exact (C5_save_failure_keeps_mutation
      [{ id := "a", content := "", created_at := 1, updated_at := 1, pinned := false,
         list := "L", deleted := false, deleted_at := none }]
      "u" "a" "x" "L" "M" 5 true "boom").2.1.2 _ rfl
  · exact (C5_save_failure_keeps_mutation [] "u" "a" "x" "L" "M" 5 true "boom").1.2

/-! ## C6: load falls back to the empty collection -/

/-- C6: loading never errors (the function is total into collections);
when the file is absent or unreadable (`none`) or its contents fail to
decode into the expected structure, the result is the empty
collection. -/
theorem C6_load_failure_empty :
    load_notes none = [] ∧
    ∀ j, decodeNotes j = none → load_notes (some j) = [] := by
  refine ⟨rfl, ?_⟩
  intro j h
  simp [load_notes, h]

/-- Witness for C6 at a file whose contents are not a JSON array. -/
theorem C6_witness : load_notes (some Json.null) = [] :=
  C6_load_failure_empty.2 Json.null rfl

/-! ## C7: fields of a freshly created note -/

/-- C7: a successful create with a non-empty generated id returns a note
with that id, empty content, `pinned == false`, `deleted == false`,
absent `deleted_at`, the requested list label, and
`created_at == updated_at == now`; the note is appended at the end of
the collection and all other notes are unchanged. -/
theorem C7_create_fields (notes : List Note) (freshId : String) (now : Nat)
    (lst : String) (h : freshId ≠ "") :
    ∃ n, (create_note notes freshId now lst (Except.ok ())).1 = Except.ok n ∧
      n.id = freshId ∧ n.id ≠ "" ∧ n.content = "" ∧ n.pinned = false ∧
      n.deleted = false ∧ n.deleted_at = none ∧ n.list = lst ∧
      n.created_at = now ∧ n.updated_at = now ∧
      (create_note notes freshId now lst (Except.ok ())).2 = notes ++ [n] :=
  ⟨_, rfl, rfl, h, rfl, rfl, rfl, rfl, rfl, rfl, rfl, rfl⟩

/-- Witness for C7 at a concrete create with list "Work". -/
theorem C7_witness :
    ∃ n, (create_note [] "u1" 7 "Work" (Except.ok ())).1 = Except.ok n ∧
      n.id = "u1" ∧ n.id ≠ "" ∧ n.content = "" ∧ n.pinned = false ∧
      n.deleted = false ∧ n.deleted_at = none ∧ n.list = "Work" ∧
      n.created_at = 7 ∧ n.updated_at = 7 ∧
      (create_note [] "u1" 7 "Work" (Except.ok ())).2 = [] ++ [n] :=
  C7_create_fields [] "u1" 7 "Work" (by decide)

/-! ## C8: hard-delete and rename-list are no-ops on missing targets -/

/-- C8: hard-deleting an id present on no note succeeds and leaves the
collection unchanged, and renaming a list label matched by no note
succeeds and leaves the collection unchanged: both are idempotent
no-ops in the missing case, with no "not found" error. -/
theorem C8_missing_noops (notes : List Note) (id old_list new_list : String)
    (h1 : ∀ n ∈ notes, (n.id == id) = false)
    (h2 : ∀ n ∈ notes, (n.list == old_list) = false) :
    delete_note notes id (Except.ok ()) = (Except.ok (), notes) ∧
    update_note_list notes old_list new_list (Except.ok ()) = (Except.ok (), notes) := by
  constructor
  · unfold delete_note
    rw [Prod.mk.injEq]
    refine ⟨rfl, List.filter_eq_self.mpr ?_⟩
    intro a ha
    simp [bne, h1 a ha]
  · unfold update_note_list
    rw [Prod.mk.injEq]
    refine ⟨rfl, map_fix_eq_self _ notes ?_⟩
    intro a ha
    simp [h2 a ha]

/-- Witness for C8 at a one-note collection and unmatched id and label. -/
theorem C8_witness :
    delete_note
      [{ id := "a", content := "", created_at := 1, updated_at := 1, pinned := false,
         list := "L", deleted := false, deleted_at := none }] "b" (Except.ok ()) =
      (Except.ok (),
        [{ id := "a", content := "", created_at := 1, updated_at := 1, pinned := false,
           list := "L", deleted := false, deleted_at := none }]) ∧
    update_note_list
      [{ id := "a", content := "", created_at := 1, updated_at := 1, pinned := false,
         list := "L", deleted := false, deleted_at := none }] "X" "Y" (Except.ok ()) =
      (Except.ok (),
        [{ id := "a", content := "", created_at := 1, updated_at := 1, pinned := false,
           list := "L", deleted := false, deleted_at := none }]) :=
  C8_missing_noops _ "b" "X" "Y" (by decide) (by decide)

/-! ## Per-operation state lemmas -/

/-- Membership in the collection after `update_note`: untouched or the
edited first match. -/
theorem update_note_mem {notes : List Note} {id c : String} {now : Nat}
    {sr : Except String Unit} :
    ∀ m ∈ (update_note notes id c now sr).2, m ∈ notes ∨
      ∃ x ∈ notes, m = { x with content := c, updated_at := now } := by
  cases hrec : updateFirst (fun n => n.id == id)
      (fun n => { n with content := c, updated_at := now }) notes with
  | none =>
    intro m hm
    simp [update_note, hrec] at hm
    exact Or.inl hm
  | some r =>
    obtain ⟨u, l'⟩ := r
    obtain ⟨x, hx, _, _, hmem⟩ := updateFirst_some hrec
    intro m hm
    simp [update_note, hrec] at hm
    rcases hmem m hm with h1 | h1
    · exact Or.inl h1
    · exact Or.inr ⟨x, hx, h1⟩

/-- Membership in the collection after `pin_note`. -/
theorem pin_note_mem {notes : List Note} {id : String} {b : Bool}
    {sr : Except String Unit} :
    ∀ m ∈ (pin_note notes id b sr).2, m ∈ notes ∨
      ∃ x ∈ notes, m = { x with pinned := b } := by
  cases hrec : updateFirst (fun n => n.id == id) (fun n => { n with pinned := b }) notes with
  | none =>
    intro m hm
    simp [pin_note, hrec] at hm
    exact Or.inl hm
  | some r =>
    obtain ⟨u, l'⟩ := r
    obtain ⟨x, hx, _, _, hmem⟩ := updateFirst_some hrec
    intro m hm
    simp [pin_note, hrec] at hm
    rcases hmem m hm with h1 | h1
    · exact Or.inl h1
    · exact Or.inr ⟨x, hx, h1⟩

/-- Membership in the collection after `soft_delete_note`. -/
theorem soft_delete_note_mem {notes : List Note} {id : String} {now : Nat}
    {sr : Except String Unit} :
    ∀ m ∈ (soft_delete_note notes id now sr).2, m ∈ notes ∨
      ∃ x ∈ notes, m = { x with deleted := true, deleted_at := some now, pinned := false } := by
  cases hrec : updateFirst (fun n => n.id == id)
      (fun n => { n with deleted := true, deleted_at := some now, pinned := false }) notes with
  | none =>
    intro m hm
    simp [soft_delete_note, hrec] at hm
    exact Or.inl hm
  | some r =>
    obtain ⟨u, l'⟩ := r
    obtain ⟨x, hx, _, _, hmem⟩ := updateFirst_some hrec
    intro m hm
    simp [soft_delete_note, hrec] at hm
    rcases hmem m hm with h1 | h1
    · exact Or.inl h1
    · exact Or.inr ⟨x, hx, h1⟩

/-- Membership in the collection after `restore_note`. -/
theorem restore_note_mem {notes : List Note} {id : String}
    {sr : Except String Unit} :
    ∀ m ∈ (restore_note notes id sr).2, m ∈ notes ∨
      ∃ x ∈ notes, m = { x with deleted := false, deleted_at := none } := by
  cases hrec : updateFirst (fun n => n.id == id)
      (fun n => { n with deleted := false, deleted_at := none }) notes with
  | none =>
    intro m hm
    simp [restore_note, hrec] at hm
    exact Or.inl hm
  | some r =>
    obtain ⟨u, l'⟩ := r
    obtain ⟨x, hx, _, _, hmem⟩ := updateFirst_some hrec
    intro m hm
    simp [restore_note, hrec] at hm
    rcases hmem m hm with h1 | h1
    · exact Or.inl h1
    · exact Or.inr ⟨x, hx, h1⟩

/-- Membership in the collection after `update_note_list`. -/
theorem update_note_list_mem {notes : List Note} {ol nl : String}
    {sr : Except String Unit} :
    ∀ m ∈ (update_note_list notes ol nl sr).2,
      ∃ x ∈ notes, m = x ∨ m = { x with list := nl } := by
  intro m hm
  simp only [update_note_list] at hm
  rw [List.mem_map] at hm
  obtain ⟨x, hx, hxm⟩ := hm
  refine ⟨x, hx, ?_⟩
  by_cases h : (x.list == ol) = true
  · rw [h] at hxm
    simp at hxm
    exact Or.inr hxm.symm
  · rw [Bool.not_eq_true] at h
    rw [h] at hxm
    simp at hxm
    exact Or.inl hxm.symm

/-- Membership in the collection after `delete_note`. -/
theorem delete_note_mem {notes : List Note} {id : String}
    {sr : Except String Unit} :
    ∀ m ∈ (delete_note notes id sr).2, m ∈ notes := by
  intro m hm
  simp only [delete_note] at hm
  exact (List.mem_filter.mp hm).1

/-- Membership in the collection after `create_note`. -/
theorem create_note_mem {notes : List Note} {freshId lst : String} {now : Nat}
    {sr : Except String Unit} :
    ∀ m ∈ (create_note notes freshId now lst sr).2, m ∈ notes ∨
      m = { id := freshId, content := "", created_at := now, updated_at := now,
            pinned := false, list := lst, deleted := false, deleted_at := none } := by
  intro m hm
  simp only [create_note] at hm
  rcases List.mem_append.mp hm with h1 | h1
  · exact Or.inl h1
  · exact Or.inr (List.mem_singleton.mp h1)

/-! ## C1: the Active⇔Deleted invariant is preserved -/

/-- One step of any operation preserves the Active⇔Deleted invariant. -/
theorem invDel_applyOp (op : Op) (notes : List Note) (h : InvDel notes) :
    InvDel (applyOp notes op) := by
  cases op with
  | create freshId now lst =>
    intro m hm
    rcases create_note_mem m hm with h1 | h1
    · exact h m h1
    · rw [h1]
      exact ⟨by simp, by simp⟩
  | update id c now =>
    intro m hm
    rcases update_note_mem m hm with h1 | ⟨x, hx, h1⟩
    · exact h m h1
    · rw [h1]
      exact h x hx
  | pin id b =>
    intro m hm
    rcases pin_note_mem m hm with h1 | ⟨x, hx, h1⟩
    · exact h m h1
    · rw [h1]
      exact h x hx
  | renameList ol nl =>
    intro m hm
    obtain ⟨x, hx, h1 | h1⟩ := update_note_list_mem m hm
    · rw [h1]
      exact h x hx
    · rw [h1]
      exact h x hx
  | softDelete id now =>
    intro m hm
    rcases soft_delete_note_mem m hm with h1 | ⟨x, _, h1⟩
    · exact h m h1
    · rw [h1]
      exact ⟨by simp, by simp⟩
  | restore id =>
    intro m hm
    rcases restore_note_mem m hm with h1 | ⟨x, _, h1⟩
    · exact h m h1
    · rw [h1]
      exact ⟨by simp, by simp⟩
  | hardDelete id =>
    intro m hm
    exact h m (delete_note_mem m hm)

/-- C1: for every sequence of store operations applied from a state
satisfying the invariant, every note at every point (every point is the
endpoint of some prefix sequence) has `deleted == true` iff `deleted_at`
holds a timestamp and `deleted == false` iff `deleted_at` is absent. -/
theorem C1_active_deleted_invariant (notes : List Note) (ops : List Op)
    (h : InvDel notes) : InvDel (applyOps notes ops) := by
  induction ops generalizing notes with
  | nil => exact h
  | cons op ops ih => exact ih (applyOp notes op) (invDel_applyOp op notes h)

/-- Witness for C1: a concrete run of create, soft-delete, pin, restore,
edit, rename, hard-delete from a one-note state. -/
theorem C1_witness :
    InvDel (applyOps
      [{ id := "a", content := "c", created_at := 1, updated_at := 1, pinned := true,
         list := "L", deleted := false, deleted_at := none }]
      [Op.create "b" 2 "Work", Op.softDelete "a" 3, Op.pin "b" true,
       Op.restore "a", Op.update "b" "hello" 4, Op.renameList "Work" "Archive",
       Op.hardDelete "a"]) :=
  C1_active_deleted_invariant _ _ (by decide)

/-! ## C4: id uniqueness -/

/-- `update_note` never changes any id. -/
theorem update_note_ids (notes : List Note) (id c : String) (now : Nat)
    (sr : Except String Unit) :
    idsOf (update_note notes id c now sr).2 = idsOf notes := by
  cases hrec : updateFirst (fun n => n.id == id)
      (fun n => { n with content := c, updated_at := now }) notes with
  | none => simp [update_note, hrec]
  | some r =>
    obtain ⟨u, l'⟩ := r
    simp only [update_note, hrec]
    exact updateFirst_map hrec (fun m => rfl)

/-- `pin_note` never changes any id. -/
theorem pin_note_ids (notes : List Note) (id : String) (b : Bool)
    (sr : Except String Unit) :
    idsOf (pin_note notes id b sr).2 = idsOf notes := by
  cases hrec : updateFirst (fun n => n.id == id) (fun n => { n with pinned := b }) notes with
  | none => simp [pin_note, hrec]
  | some r =>
    obtain ⟨u, l'⟩ := r
    simp only [pin_note, hrec]
    exact updateFirst_map hrec (fun m => rfl)

/-- `soft_delete_note` never changes any id. -/
theorem soft_delete_note_ids (notes : List Note) (id : String) (now : Nat)
    (sr : Except String Unit) :
    idsOf (soft_delete_note notes id now sr).2 = idsOf notes := by
  cases hrec : updateFirst (fun n => n.id == id)
      (fun n => { n with deleted := true, deleted_at := some now, pinned := false }) notes with
  | none => simp [soft_delete_note, hrec]
  | some r =>
    obtain ⟨u, l'⟩ := r
    simp only [soft_delete_note, hrec]
    exact updateFirst_map hrec (fun m => rfl)

/-- `restore_note` never changes any id. -/
theorem restore_note_ids (notes : List Note) (id : String)
    (sr : Except String Unit) :
    idsOf (restore_note notes id sr).2 = idsOf notes := by
  cases hrec : updateFirst (fun n => n.id == id)
      (fun n => { n with deleted := false, deleted_at := none }) notes with
  | none => simp [restore_note, hrec]
  | some r =>
    obtain ⟨u, l'⟩ := r
    simp only [restore_note, hrec]
    exact updateFirst_map hrec (fun m => rfl)

/-- `update_note_list` never changes any id. -/
theorem update_note_list_ids (notes : List Note) (ol nl : String)
    (sr : Except String Unit) :
    idsOf (update_note_list notes ol nl sr).2 = idsOf notes := by
  simp only [update_note_list, idsOf, List.map_map]
  exact List.map_congr_left (fun a _ => by by_cases h : a.list = ol <;> simp [h])

/-- `delete_note` removes exactly the ids equal to the target. -/
theorem delete_note_ids (notes : List Note) (id : String)
    (sr : Except String Unit) :
    idsOf (delete_note notes id sr).2 = (idsOf notes).filter (fun s => s != id) := by
  simp only [delete_note, idsOf]
  have hcomp : List.filter ((fun s => s != id) ∘ Note.id) notes =
      List.filter (fun n => n.id != id) notes := rfl
  rw [← hcomp]
  exact (List.filter_map Note.id notes).symm

/-- `create_note` appends exactly the fresh id. -/
theorem create_note_ids (notes : List Note) (freshId lst : String) (now : Nat)
    (sr : Except String Unit) :
    idsOf (create_note notes freshId now lst sr).2 = idsOf notes ++ [freshId] := by
  simp [create_note, idsOf]

/-- C4: along any sequence of operations in which every create draws an
id not currently present (the uniqueness delivered by the UUID
generator), the ids of the collection stay pairwise distinct; and no
operation other than create and hard-delete ever changes the id
multiset — the single-note and bulk mutations keep `idsOf` exactly,
hard-delete filters it, create appends the fresh id. -/
theorem C4_id_uniqueness :
    (∀ (notes : List Note) (ops : List Op),
      (idsOf notes).Nodup → freshAlong notes ops = true →
      (idsOf (applyOps notes ops)).Nodup) ∧
    (∀ (notes : List Note) (id c ol nl : String) (now : Nat) (b : Bool)
      (sr : Except String Unit),
      idsOf (update_note notes id c now sr).2 = idsOf notes ∧
      idsOf (pin_note notes id b sr).2 = idsOf notes ∧
      idsOf (soft_delete_note notes id now sr).2 = idsOf notes ∧
      idsOf (restore_note notes id sr).2 = idsOf notes ∧
      idsOf (update_note_list notes ol nl sr).2 = idsOf notes ∧
      idsOf (delete_note notes id sr).2 = (idsOf notes).filter (fun s => s != id) ∧
      idsOf (create_note notes id now ol sr).2 = idsOf notes ++ [id]) := by
  constructor
  · intro notes ops
    induction ops generalizing notes with
    | nil => exact fun hn _ => hn
    | cons op ops ih =>
      intro hn hf
      cases op with
      | create freshId now lst =>
        simp only [freshAlong, Bool.and_eq_true] at hf
        obtain ⟨hfresh, hrest⟩ := hf
        refine ih (applyOp notes (Op.create freshId now lst)) ?_ hrest
        show (idsOf (create_note notes freshId now lst (Except.ok ())).2).Nodup
        rw [create_note_ids]
        have hnotmem : freshId ∉ idsOf notes := by
          simpa using hfresh
        simp [List.nodup_append, hn, hnotmem]
      | update id c now =>
        simp only [freshAlong] at hf
        refine ih _ ?_ hf
        show (idsOf (update_note notes id c now (Except.ok ())).2).Nodup
        rw [update_note_ids]
        exact hn
      | pin id b =>
        simp only [freshAlong] at hf
        refine ih _ ?_ hf
        show (idsOf (pin_note notes id b (Except.ok ())).2).Nodup
        rw [pin_note_ids]
        exact hn
      | renameList ol nl =>
        simp only [freshAlong] at hf
        refine ih _ ?_ hf
        show (idsOf (update_note_list notes ol nl (Except.ok ())).2).Nodup
        rw [update_note_list_ids]
        exact hn
      | softDelete id now =>
        simp only [freshAlong] at hf
        refine ih _ ?_ hf
        show (idsOf (soft_delete_note notes id now (Except.ok ())).2).Nodup
        rw [soft_delete_note_ids]
        exact hn
      | restore id =>
        simp only [freshAlong] at hf
        refine ih _ ?_ hf
        show (idsOf (restore_note notes id (Except.ok ())).2).Nodup
        rw [restore_note_ids]
        exact hn
      | hardDelete id =>
        simp only [freshAlong] at hf
        refine ih _ ?_ hf
        show (idsOf (delete_note notes id (Except.ok ())).2).Nodup
        rw [delete_note_ids]
        exact hn.filter _
  · intro notes id c ol nl now b sr
    exact ⟨update_note_ids notes id c now sr, pin_note_ids notes id b sr,
      soft_delete_note_ids notes id now sr, restore_note_ids notes id sr,
      update_note_list_ids notes ol nl sr, delete_note_ids notes id sr,
      create_note_ids notes id ol now sr⟩

/-- Witness for C4: two fresh creates and a hard-delete keep the ids
pairwise distinct. -/
theorem C4_witness :
    (idsOf (applyOps
      [{ id := "a", content := "", created_at := 1, updated_at := 1, pinned := false,
         list := "L", deleted := false, deleted_at := none }]
      [Op.create "b" 2 "L", Op.create "c" 3 "L", Op.hardDelete "a"])).Nodup :=
  C4_id_uniqueness.1 _ _ (by decide) (by decide)

/-! ## C9: timestamp invariants -/

/-- One step preserves `created_at ≤ updated_at` everywhere and keeps
all timestamps bounded by the latest clock reading, provided the clock
reading the operation consumes (if any) is not in the past. -/
theorem timeInv_applyOp (op : Op) (notes : List Note) (t : Nat)
    (hI : InvTime notes) (hB : TimeBound t notes)
    (ht : ∀ t' ∈ op.time, t ≤ t') :
    InvTime (applyOp notes op) ∧ TimeBound ((op.time).getD t) (applyOp notes op) := by
  cases op with
  | create freshId now lst =>
    have htn : t ≤ now := ht now rfl
    constructor
    · intro m hm
      rcases create_note_mem m hm with h1 | h1
      · exact hI m h1
      · rw [h1]
    · intro m hm
      rcases create_note_mem m hm with h1 | h1
      · exact ⟨le_trans (hB m h1).1 htn, le_trans (hB m h1).2 htn⟩
      · rw [h1]
        exact ⟨le_refl _, le_refl _⟩
  | update id c now =>
    have htn : t ≤ now := ht now rfl
    constructor
    · intro m hm
      rcases update_note_mem m hm with h1 | ⟨x, hx, h1⟩
      · exact hI m h1
      · rw [h1]
        exact le_trans (le_trans (hB x hx).1 htn) (le_refl now)
    · intro m hm
      rcases update_note_mem m hm with h1 | ⟨x, hx, h1⟩
      · exact ⟨le_trans (hB m h1).1 htn, le_trans (hB m h1).2 htn⟩
      · rw [h1]
        exact ⟨le_trans (hB x hx).1 htn, le_refl now⟩
  | pin id b =>
    constructor
    · intro m hm
      rcases pin_note_mem m hm with h1 | ⟨x, hx, h1⟩
      · exact hI m h1
      · rw [h1]
        exact hI x hx
    · intro m hm
      rcases pin_note_mem m hm with h1 | ⟨x, hx, h1⟩
      · exact hB m h1
      · rw [h1]
        exact hB x hx
  | renameList ol nl =>
    constructor
    · intro m hm
      obtain ⟨x, hx, h1 | h1⟩ := update_note_list_mem m hm
      · rw [h1]; exact hI x hx
      · rw [h1]; exact hI x hx
    · intro m hm
      obtain ⟨x, hx, h1 | h1⟩ := update_note_list_mem m hm
      · rw [h1]; exact hB x hx
      · rw [h1]; exact hB x hx
  | softDelete id now =>
    have htn : t ≤ now := ht now rfl
    constructor
    · intro m hm
      rcases soft_delete_note_mem m hm with h1 | ⟨x, hx, h1⟩
      · exact hI m h1
      · rw [h1]
        exact hI x hx
    · intro m hm
      rcases soft_delete_note_mem m hm with h1 | ⟨x, hx, h1⟩
      · exact ⟨le_trans (hB m h1).1 htn, le_trans (hB m h1).2 htn⟩
      · rw [h1]
        exact ⟨le_trans (hB x hx).1 htn, le_trans (hB x hx).2 htn⟩
  | restore id =>
    constructor
    · intro m hm
      rcases restore_note_mem m hm with h1 | ⟨x, hx, h1⟩
      · exact hI m h1
      · rw [h1]
        exact hI x hx
    · intro m hm
      rcases restore_note_mem m hm with h1 | ⟨x, hx, h1⟩
      · exact hB m h1
      · rw [h1]
        exact hB x hx
  | hardDelete id =>
    constructor
    · intro m hm
      exact hI m (delete_note_mem m hm)
    · intro m hm
      exact hB m (delete_note_mem m hm)

/-- C9: (i) along any well-timed sequence of operations (clock readings
non-decreasing, starting no earlier than every timestamp already in the
collection) every note satisfies `created_at ≤ updated_at` at every
point; (ii) a content edit leaves every note untouched except the first
match, whose `created_at` is kept and whose `updated_at` advances to
`now`, a value no smaller than its previous `updated_at`; (iii) the note
a successful edit returns carries `updated_at = now` and the new
content. -/
theorem C9_timestamps :
    (∀ (notes : List Note) (t : Nat) (ops : List Op),
      InvTime notes → TimeBound t notes → wellTimed t ops = true →
      InvTime (applyOps notes ops)) ∧
    (∀ (notes : List Note) (t : Nat) (id c : String) (now : Nat)
      (sr : Except String Unit), TimeBound t notes → t ≤ now →
      ∀ m ∈ (update_note notes id c now sr).2, m ∈ notes ∨
        ∃ x ∈ notes, m = { x with content := c, updated_at := now } ∧
          x.created_at = m.created_at ∧ x.updated_at ≤ now) ∧
    (∀ (notes : List Note) (id c : String) (now : Nat)
      (sr : Except String Unit) (n : Note),
      (update_note notes id c now sr).1 = Except.ok n →
      n.updated_at = now ∧ n.content = c) := by
  refine ⟨?_, ?_, ?_⟩
  · intro notes t ops
    induction ops generalizing notes t with
    | nil => exact fun hI _ _ => hI
    | cons op ops ih =>
      intro hI hB hw
      cases hop : op.time with
      | none =>
        simp only [wellTimed, hop] at hw
        have hstep := timeInv_applyOp op notes t hI hB (by intro t' h; rw [hop] at h; cases h)
        rw [hop] at hstep
        exact ih (applyOp notes op) t hstep.1 hstep.2 hw
      | some t' =>
        simp only [wellTimed, hop, Bool.and_eq_true, decide_eq_true_eq] at hw
        obtain ⟨htt, hw⟩ := hw
        have hstep := timeInv_applyOp op notes t hI hB
          (by intro s h; rw [hop] at h; cases h; exact htt)
        rw [hop] at hstep
        exact ih (applyOp notes op) t' hstep.1 hstep.2 hw
  · intro notes t id c now sr hB htn m hm
    rcases update_note_mem m hm with h1 | ⟨x, hx, h1⟩
    · exact Or.inl h1
    · refine Or.inr ⟨x, hx, h1, ?_, le_trans (hB x hx).2 htn⟩
      rw [h1]
  · intro notes id c now sr n hn
    cases hrec : updateFirst (fun a => a.id == id)
        (fun a => { a with content := c, updated_at := now }) notes with
    | none =>
      simp [update_note, hrec] at hn
    | some r =>
      obtain ⟨u, l'⟩ := r
      obtain ⟨x, _, _, hux, _⟩ := updateFirst_some hrec
      simp [update_note, hrec] at hn
      cases sr with
      | error e => simp at hn
      | ok _ =>
        simp at hn
        subst hn
        rw [hux]
        exact ⟨rfl, rfl⟩

/-- Witness for C9: a concrete well-timed run and a concrete edit. -/
theorem C9_witness :
    InvTime (applyOps
      [{ id := "a", content := "", created_at := 1, updated_at := 2, pinned := false,
         list := "L", deleted := false, deleted_at := none }]
      [Op.update "a" "x" 11, Op.create "b" 12 "L", Op.softDelete "a" 13]) ∧
    (({ id := "a", content := "", created_at := 1, updated_at := 2, pinned := false,
        list := "L", deleted := false, deleted_at := none } : Note) ∈
      ([{ id := "a", content := "", created_at := 1, updated_at := 2, pinned := false,
          list := "L", deleted := false, deleted_at := none }] : List Note) ∨
      ∃ x ∈ ([({ id := "a", content := "", created_at := 1, updated_at := 2, pinned := false, list := "L", deleted := false, deleted_at := none } : Note)] : List Note),
        ({ id := "a", content := "x", created_at := 1, updated_at := 11, pinned := false, list := "L", deleted := false, deleted_at := none } : Note) = { x with content := "x", updated_at := 11 } ∧ x.created_at = 1 ∧ x.updated_at ≤ 11) ∧
    (({ id := "a", content := "x", created_at := 1, updated_at := 11, pinned := false, list := "L", deleted := false, deleted_at := none } : Note).updated_at = 11 ∧
      ({ id := "a", content := "x", created_at := 1, updated_at := 11, pinned := false, list := "L", deleted := false, deleted_at := none } : Note).content = "x") := by
  refine ⟨?_, ?_, ?_⟩
  · exact C9_timestamps.1 _ 10 _ (by decide) (by decide) (by decide)
  · have h := C9_timestamps.2.1
      [{ id := "a", content := "", created_at := 1, updated_at := 2, pinned := false,
         list := "L", deleted := false, deleted_at := none }] 10 "a" "x" 11
      (Except.ok ()) (by decide) (by decide)
      { id := "a", content := "x", created_at := 1, updated_at := 11, pinned := false,
        list := "L", deleted := false, deleted_at := none } (by decide)
    rcases h with h1 | ⟨x, hx, hm, hc, hu⟩
    · exact absurd h1 (by decide)
    · exact Or.inr ⟨x, hx, hm, hc, hu⟩
  · exact C9_timestamps.2.2
      [{ id := "a", content := "", created_at := 1, updated_at := 2, pinned := false,
         list := "L", deleted := false, deleted_at := none }] "a" "x" 11
      (Except.ok ()) _ rfl

/-! ## C3: save/load round-trip -/

/-- Decoding the serialization of one note recovers it exactly: every
field is written, so no default is consulted on the way back. -/
theorem decodeNote_encodeNote (n : Note) : decodeNote (encodeNote n) = some n := by
  cases n with
  | mk id content created_at updated_at pinned list deleted deleted_at =>
    cases deleted_at with
    | none => rfl
    | some t => rfl

/-- Decoding the serialization of a collection recovers it exactly. -/
theorem mapM_decode_encode (notes : List Note) :
    List.mapM decodeNote (notes.map encodeNote) = some notes := by
  induction notes with
  | nil => rfl
  | cons n rest ih =>
    rw [List.map_cons, List.mapM_cons, decodeNote_encodeNote, ih]
    rfl

/-- C3: saving a collection and loading from the same location
reproduces a collection equal to the original.  Equality here is full
structural equality of the notes, which subsumes the spec's
"equal in content (ignoring field order)": the serializer writes every
field (defaults included), so the defaulting paths of the loader are
never taken on a freshly saved file. -/
theorem C3_save_load_roundtrip (notes : List Note) :
    load_notes (some (save_notes notes)) = notes := by
  show ((decodeNotes (encodeNotes notes)).getD []) = notes
  have h : decodeNotes (encodeNotes notes) = some notes := mapM_decode_encode notes
  rw [h]
  rfl

/-! ## C10: load applies defaults but validates nothing -/

/-- C10: well-formed JSON file contents exist that load accepts
unchecked and that break every documented invariant at once: the first
record omits `deleted` (defaulted to `false`) yet carries a `deleted_at`
timestamp, its `updated_at` is smaller than its `created_at`, and the
second record reuses the same id.  `load_notes` returns them verbatim. -/
theorem C10_load_accepts_invalid_states :
    load_notes (some (Json.arr
      [ Json.obj
          [ ("id", Json.str "a"), ("content", Json.str ""),
            ("created_at", Json.num 5), ("updated_at", Json.num 3),
            ("deleted_at", Json.num 7) ]
      , Json.obj
          [ ("id", Json.str "a"), ("content", Json.str "y"),
            ("created_at", Json.num 1), ("updated_at", Json.num 1),
            ("pinned", Json.bool false), ("list", Json.str "L"),
            ("deleted", Json.bool false), ("deleted_at", Json.null) ] ])) =
      [ { id := "a", content := "", created_at := 5, updated_at := 3, pinned := false, list := "My Notes", deleted := false, deleted_at := some 7 }
      , { id := "a", content := "y", created_at := 1, updated_at := 1, pinned := false, list := "L", deleted := false, deleted_at := none } ] ∧
    ¬ InvDel (load_notes (some (Json.arr
      [ Json.obj
          [ ("id", Json.str "a"), ("content", Json.str ""),
            ("created_at", Json.num 5), ("updated_at", Json.num 3),
            ("deleted_at", Json.num 7) ] ]))) ∧
    ¬ InvTime [ ({ id := "a", content := "", created_at := 5, updated_at := 3, pinned := false, list := "My Notes", deleted := false, deleted_at := some 7 } : Note) ] ∧
    ¬ (idsOf
      [ { id := "a", content := "", created_at := 5, updated_at := 3, pinned := false, list := "My Notes", deleted := false, deleted_at := some 7 }
      , { id := "a", content := "y", created_at := 1, updated_at := 1, pinned := false, list := "L", deleted := false, deleted_at := none } ]).Nodup := by
  refine ⟨by decide, by decide, by decide, by decide⟩
